import Mathlib

/-!
Verification development for the MIR place-lowering pass
(`compiler/rustc_mir_build/src/build/expr/as_place.rs`).

The Rust source is shallowly embedded: locals and basic blocks are natural
numbers, the control-flow-graph builder is a flat list of emitted
instructions together with a current-block cursor, and the fallible
internal-invariant aborts (the Rust macro that aborts compilation, and
panicking unwraps) are modelled by `Option` with `none` meaning abort.
Spans, source scopes and lint levels carry no behaviour relevant to the
properties below and are omitted.
-/

/-- A storage slot (`Local` in MIR): an index into the local-declaration
table of the function body being built. -/
abbrev Local := Nat

/-- A basic-block identifier. -/
abbrev BasicBlock := Nat

/-- Requested mutability of a lowering (`Mutability` in the source). -/
inductive Mutability where
  | mut
  | not
deriving DecidableEq, Repr

/-- Closure kind (`ty::ClosureKind`). -/
inductive ClosureKind where
  | fn
  | fnMut
  | fnOnce
deriving DecidableEq, Repr

/-- `ForGuard`: which copy of a pattern binding to use inside or outside a
match guard. -/
inductive ForGuard where
  | outsideGuard
  | refWithinGuard
deriving DecidableEq, Repr

/-- Capture mode of an upvar (`ty::UpvarCapture`); the payloads (borrow
kind, span) carry no behaviour here. -/
inductive UpvarCapture where
  | byValue
  | byRef
deriving DecidableEq, Repr

/-- Borrow kinds used by this file (`BorrowKind::Shallow` is the only one
emitted). -/
inductive BorrowKind where
  | shallow
deriving DecidableEq, Repr

/-- Binary operations used by this file (`BinOp::Lt` is the only one
emitted). -/
inductive BinOp where
  | lt
deriving DecidableEq, Repr

/-- Cause recorded on a fake-read instruction (`FakeReadCause::ForIndex`
is the only one used here). -/
inductive FakeReadCause where
  | forIndex
deriving DecidableEq, Repr

/-- The expression kinds of the catch-all arm of `expr_as_place`: the
kinds that never denote a location.  The source lists them in one match
arm; all receive identical treatment. -/
inductive NonPlaceKind where
  | kArray
  | kTuple
  | kAdt
  | kClosure
  | kUnary
  | kBinary
  | kLogicalOp
  | kBox
  | kCast
  | kUse
  | kNeverToAny
  | kPointer
  | kRepeat
  | kBorrow
  | kAddressOf
  | kMatch
  | kLoop
  | kBlock
  | kAssign
  | kAssignOp
  | kBreak
  | kContinue
  | kReturn
  | kLiteral
  | kConstBlock
  | kStaticRef
  | kInlineAsm
  | kLlvmInlineAsm
  | kYield
  | kThreadLocalRef
  | kCall
deriving DecidableEq, Repr

/-- The fragment of the type system (`Ty`) that this pass inspects:
references (for dereference projections and the synthesized fake-borrow
reference types), slices and fixed-size arrays (for the bounds-check /
fake-borrow logic), closure and generator environments (for capture
lowering), the primitive `usize` / `bool` used by the bounds check, an
opaque family `other` for types the pass never looks into, and `err` for
type-query results that cannot arise on type-checked input. -/
inductive Ty where
  | usize
  | bool
  | ref (t : Ty)
  | slice (t : Ty)
  | array (t : Ty) (n : Nat)
  | closure (k : ClosureKind) (upvarTys : List Ty)
  | generator (upvarTys : List Ty)
  | other (tag : Nat)
  | err
deriving Repr

/-- One place projection (`PlaceElem` / `ProjectionElem`). -/
inductive PlaceElem where
  | deref
  | field (f : Nat) (ty : Ty)
  | index (l : Local)
  | constantIndex (offset minLength : Nat) (fromEnd : Bool)
  | subslice (lo hi : Nat) (fromEnd : Bool)
  | downcast (variant : Nat)
deriving Repr

/-- A finalized place: base local plus projection sequence. -/
structure Place where
  localId : Local
  projection : List PlaceElem
deriving Repr

def Place.ofLocal (l : Local) : Place := ⟨l, []⟩

/-- `PlaceBuilder`: the mutable accumulator used to build up a place by
pushing projections onto the end. -/
structure PlaceBuilder where
  localId : Local
  projection : List PlaceElem
deriving Repr

def PlaceBuilder.into_place (self : PlaceBuilder) : Place :=
  ⟨self.localId, self.projection⟩

def PlaceBuilder.project (self : PlaceBuilder) (elem : PlaceElem) : PlaceBuilder :=
  ⟨self.localId, self.projection ++ [elem]⟩

def PlaceBuilder.field (self : PlaceBuilder) (f : Nat) (ty : Ty) : PlaceBuilder :=
  self.project (PlaceElem.field f ty)

def PlaceBuilder.deref (self : PlaceBuilder) : PlaceBuilder :=
  self.project PlaceElem.deref

def PlaceBuilder.index (self : PlaceBuilder) (index : Local) : PlaceBuilder :=
  self.project (PlaceElem.index index)

/-- `impl From<Local> for PlaceBuilder`. -/
def PlaceBuilder.ofLocal (localId : Local) : PlaceBuilder := ⟨localId, []⟩

/-- A local declaration: its type and mutability (`LocalDecl`; spans are
omitted). -/
structure LocalDecl where
  ty : Ty
  mutability : Mutability
deriving Repr

/-- Operands of emitted instructions (`Operand::Copy` / `Operand::Move`). -/
inductive Operand where
  | copy (p : Place)
  | move (p : Place)
deriving Repr

/-- Right-hand sides emitted by this pass: `Rvalue::Len`,
`Rvalue::BinaryOp` and `Rvalue::Ref`. -/
inductive Rvalue where
  | len (p : Place)
  | binaryOp (op : BinOp) (a b : Operand)
  | ref (kind : BorrowKind) (p : Place)
deriving Repr

/-- Failure payload of the bounds-check assertion
(`AssertKind::BoundsCheck`). -/
inductive AssertMsg where
  | boundsCheck (len : Operand) (index : Operand)
deriving Repr

/-- One emitted instruction, tagged with the block it was pushed into.
`assertTerm` is the assert terminator: it records its success and failure
blocks.  `eval` is the opaque marker standing for whatever the external
value-evaluation collaborator (`as_temp`) emits to evaluate an expression
into the given temporary. -/
inductive Stmt where
  | assign (block : BasicBlock) (dst : Place) (rv : Rvalue)
  | ascribe (block : BasicBlock) (place : Place) (annIndex : Nat)
  | fakeRead (block : BasicBlock) (cause : FakeReadCause) (place : Place)
  | assertTerm (block : BasicBlock) (cond : Operand) (expected : Bool)
      (msg : AssertMsg) (success failure : BasicBlock)
  | eval (block : BasicBlock) (temp : Local)
deriving Repr

def Stmt.isFakeRead : Stmt → Bool
  | .fakeRead _ _ _ => true
  | _ => false

def Stmt.isAssert : Stmt → Bool
  | .assertTerm _ _ _ _ _ _ => true
  | _ => false

/-- The mutable state of the `Builder`: the local-declaration table, the
flat stream of emitted instructions (in emission order), the current
insertion point, a supply of fresh block ids, and the length of the
canonical-user-type side table. -/
structure BState where
  localDecls : List LocalDecl
  stmts : List Stmt
  curBlock : BasicBlock
  nextBlock : BasicBlock
  userTypeAnnotationCount : Nat
deriving Repr

/-- Type of one projection step applied to a prefix type
(`PlaceTy::projection_ty`; a pure type-system query, external to the
source file).  Ill-typed combinations, impossible on type-checked input,
give `Ty.err`. -/
def projTy (t : Ty) (elem : PlaceElem) : Ty :=
  match elem with
  | .field _ fty => fty
  | .deref =>
    match t with
    | .ref t => t
    | _ => .err
  | .index _ =>
    match t with
    | .slice t => t
    | .array t _ => t
    | _ => .err
  | .constantIndex _ _ _ =>
    match t with
    | .slice t => t
    | .array t _ => t
    | _ => .err
  | .subslice lo hi fromEnd =>
    match t with
    | .slice t => .slice t
    | .array t n => if fromEnd then .array t (n - lo - hi) else .array t (hi - lo)
    | _ => .err
  | .downcast _ => t

/-- Declared type of a local. -/
def localTy (decls : List LocalDecl) (l : Local) : Ty :=
  match decls.get? l with
  | some d => d.ty
  | none => .err

/-- `Place::ty_from(local, projection, local_decls, tcx).ty`: the type of
a place, i.e. the base local's declared type pushed through the
projection sequence. -/
def ty_from (decls : List LocalDecl) (localId : Local) (projection : List PlaceElem) : Ty :=
  projection.foldl projTy (localTy decls localId)

/-- Push a fresh local declaration (`self.local_decls.push(...)`),
returning the new local's index. -/
def fresh_local (st : BState) (ty : Ty) (m : Mutability) : BState × Local :=
  ({ st with localDecls := st.localDecls ++ [⟨ty, m⟩] }, st.localDecls.length)

/-- `Builder::temp` (external to the source file): a fresh temporary slot;
`LocalDecl::new` defaults to mutable. -/
def temp (st : BState) (ty : Ty) : BState × Local :=
  fresh_local st ty Mutability.mut

/-- `CFG::push_assign` (append-only instruction sink, external to the
source file). -/
def push_assign (st : BState) (dst : Place) (rv : Rvalue) : BState :=
  { st with stmts := st.stmts ++ [Stmt.assign st.curBlock dst rv] }

/-- `CFG::push_fake_read` (append-only instruction sink, external to the
source file). -/
def push_fake_read (st : BState) (cause : FakeReadCause) (p : Place) : BState :=
  { st with stmts := st.stmts ++ [Stmt.fakeRead st.curBlock cause p] }

/-- `Builder::assert` (external to the source file).  Modelled from the
spec: emits an assertion instruction at the current insertion point and
returns a new insertion point representing the success continuation; the
failure path is a separate, freshly allocated block that raises the
structured error and does not return. -/
def assert (st : BState) (cond : Operand) (expected : Bool) (msg : AssertMsg) : BState :=
  let success := st.nextBlock
  let failure := st.nextBlock + 1
  { st with
    stmts := st.stmts ++ [Stmt.assertTerm st.curBlock cond expected msg success failure],
    curBlock := success,
    nextBlock := st.nextBlock + 2 }

/-- The typed-expression-tree nodes dispatched by `expr_as_place`.  Each
constructor carries the node's result type where the source consults it
(`expr.ty`); user-type ascriptions record only whether a user type was
supplied, since its content merely lands in the side table. -/
inductive Expr where
  | scope (value : Expr)
  | field (lhs : Expr) (name : Nat) (ty : Ty)
  | deref (arg : Expr) (ty : Ty)
  | index (lhs idx : Expr) (ty : Ty)
  | upvarRef (closureDefId varHirId : Nat) (ty : Ty)
  | varRef (id : Nat) (ty : Ty)
  | placeTypeAscription (source : Expr) (hasUserTy : Bool) (ty : Ty)
  | valueTypeAscription (source : Expr) (hasUserTy : Bool) (ty : Ty)
  | nonPlace (k : NonPlaceKind) (ty : Ty)
deriving Repr

/-- Result type of an expression node (`expr.ty`). -/
def Expr.ty : Expr → Ty
  | .scope v => v.ty
  | .field _ _ t => t
  | .deref _ t => t
  | .index _ _ t => t
  | .upvarRef _ _ t => t
  | .varRef _ t => t
  | .placeTypeAscription _ _ t => t
  | .valueTypeAscription _ _ t => t
  | .nonPlace _ t => t

/-- `Builder::as_temp` (external to the source file).  Modelled from the
spec: the value-evaluation collaborator
`materialize(insertion_point, expression, mutability)` evaluates any
expression into a fresh temporary with the given mutability and returns
the temporary's slot; the instructions it emits are abstracted as one
opaque `eval` marker. -/
def as_temp (st : BState) (e : Expr) (m : Mutability) : BState × Local :=
  let l := st.localDecls.length
  ({ st with
      localDecls := st.localDecls ++ [⟨e.ty, m⟩],
      stmts := st.stmts ++ [Stmt.eval st.curBlock l] }, l)

/-- `Builder::bounds_check`: emit `len = Len(slice)`, `lt = idx < len`
and `assert(lt, BoundsCheck { len, index })`, returning the success
continuation as the new insertion point. -/
def bounds_check (st : BState) (slice : Place) (index : Local) : BState :=
  let usize_ty := Ty.usize
  let bool_ty := Ty.bool
  let (st, len) := temp st usize_ty
  let (st, lt) := temp st bool_ty
  let st := push_assign st (Place.ofLocal len) (Rvalue.len slice)
  let st := push_assign st (Place.ofLocal lt)
    (Rvalue.binaryOp BinOp.lt (Operand.copy (Place.ofLocal index))
      (Operand.copy (Place.ofLocal len)))
  let msg := AssertMsg.boundsCheck (Operand.move (Place.ofLocal len))
    (Operand.copy (Place.ofLocal index))
  assert st (Operand.move (Place.ofLocal lt)) true msg

/-- `Builder::read_fake_borrows`: push one fake-read per collected
fake-borrow temporary, in collection order, at the current block. -/
def read_fake_borrows (st : BState) (fake_borrow_temps : List Local) : BState :=
  fake_borrow_temps.foldl
    (fun st t => push_fake_read st FakeReadCause.forIndex (Place.ofLocal t)) st

/-- The backward walk of `add_fake_borrows_of_base` over
`base_place.projection.iter().enumerate().rev()`, with the remaining
(index, element) pairs as an explicit list.  `none` models the
internal-invariant abort on an unexpected index-base type. -/
def fake_borrow_walk (pbLocal : Local) (projection : List PlaceElem)
    (items : List (Nat × PlaceElem)) (st : BState) (acc : List Local) :
    Option (BState × List Local) :=
  match items with
  | [] => some (st, acc)
  | (idx, elem) :: rest =>
    match elem with
    | .deref =>
      let fake_borrow_deref_ty := ty_from st.localDecls pbLocal (projection.take idx)
      let fake_borrow_ty := Ty.ref fake_borrow_deref_ty
      let (st, fake_borrow_temp) := fresh_local st fake_borrow_ty Mutability.mut
      let st := push_assign st (Place.ofLocal fake_borrow_temp)
        (Rvalue.ref BorrowKind.shallow ⟨pbLocal, projection.take idx⟩)
      fake_borrow_walk pbLocal projection rest st (acc ++ [fake_borrow_temp])
    | .index _ =>
      match ty_from st.localDecls pbLocal (projection.take idx) with
      | .slice _ => some (st, acc)
      | .array _ _ => fake_borrow_walk pbLocal projection rest st acc
      | _ => none
    | .field _ _ => fake_borrow_walk pbLocal projection rest st acc
    | .downcast _ => fake_borrow_walk pbLocal projection rest st acc
    | .constantIndex _ _ _ => fake_borrow_walk pbLocal projection rest st acc
    | .subslice _ _ _ => fake_borrow_walk pbLocal projection rest st acc

/-- `Builder::add_fake_borrows_of_base`: if the base place's fully
projected type is a slice, walk its projections from the end backward
emitting a shallow borrow of the strict prefix before each dereference
into a fresh temporary pushed onto the accumulator; otherwise do
nothing. -/
def add_fake_borrows_of_base (st : BState) (base_place : PlaceBuilder)
    (fake_borrow_temps : List Local) : Option (BState × List Local) :=
  let place_ty := ty_from st.localDecls base_place.localId base_place.projection
  match place_ty with
  | .slice _ =>
    fake_borrow_walk base_place.localId base_place.projection
      base_place.projection.enum.reverse st fake_borrow_temps
  | _ => some (st, fake_borrow_temps)

/-- `ty::UpvarId`: the (variable, enclosing closure expression) pair the
capture tables are keyed by. -/
structure UpvarId where
  varHirId : Nat
  closureExprId : Nat
deriving DecidableEq, Repr

/-- The read-only context this pass consults: the capture table
(`typeck_results.closure_captures`, yielding the capture's index and
`UpvarId`), node types, per-capture modes, the `capture_disjoint_fields`
feature gate, and the match-guard bookkeeping used by `VarRef`. -/
structure Hir where
  closureCaptures : Nat → Nat → Option (Nat × UpvarId)
  nodeType : Nat → Ty
  upvarCaptureMode : UpvarId → UpvarCapture
  captureDisjointFields : Bool
  boundVarInGuard : Nat → Bool
  varLocalId : Nat → ForGuard → Local

/-- `Builder::lower_closure_capture`: represent a captured variable as a
field access on the synthesized environment (local 1), dereferencing the
environment first for `Fn`/`FnMut` closures and dereferencing the field
afterwards for by-reference captures.  `none` models the
internal-invariant aborts (non-closure, non-generator environment type;
missing capture type). -/
def lower_closure_capture (hir : Hir) (st : BState) (capture_index : Nat)
    (upvar_id : UpvarId) : Option (BState × PlaceBuilder) :=
  let closure_ty := hir.nodeType upvar_id.closureExprId
  -- Captures are represented using fields inside a structure; local 1 is
  -- the implicit environment parameter.
  let place_builder := PlaceBuilder.ofLocal 1
  -- In case of Fn/FnMut closures we must deref to access the fields;
  -- generators are considered FnOnce, so this step is skipped for them.
  let place_builder :=
    match closure_ty with
    | .closure k _ =>
      match k with
      | .fn => place_builder.deref
      | .fnMut => place_builder.deref
      | .fnOnce => place_builder
    | _ => place_builder
  match
    (match closure_ty with
      | .closure _ upvarTys => some upvarTys
      | .generator upvarTys => some upvarTys
      | _ => none)  -- internal-invariant abort: non-closure environment
  with
  | none => none
  | some upvarTys =>
    match upvarTys.get? capture_index with
    | none => none  -- the unwrap on the capture's recorded type
    | some var_ty =>
      let place_builder := place_builder.field capture_index var_ty
      match hir.upvarCaptureMode upvar_id with
      | .byRef => some (st, place_builder.deref)
      | .byValue => some (st, place_builder)

/-- `Builder::expr_as_place`: the recursive place-lowering dispatcher.
The result is the advanced builder state, the place builder, and the
fake-borrow accumulator handed back to the caller (mirroring the
`Option<&mut Vec<Local>>` parameter: `some` exactly when the caller
supplied one); `none` models an internal-invariant abort.  The body of
`lower_index_expression` is inlined in the `index` arm so that the
recursion stays structural; the standalone `lower_index_expression`
below restates it verbatim. -/
def expr_as_place (hir : Hir) (st : BState) (e : Expr) (mutability : Mutability)
    (fake_borrow_temps : Option (List Local)) :
    Option (BState × PlaceBuilder × Option (List Local)) :=
  match e with
  | .scope value =>
    -- `in_scope` bookkeeping is external; the scope wrapper contributes
    -- no projection and no instruction of its own.
    expr_as_place hir st value mutability fake_borrow_temps
  | .field lhs name ty =>
    match expr_as_place hir st lhs mutability fake_borrow_temps with
    | none => none
    | some (st, place_builder, fake_borrow_temps) =>
      some (st, place_builder.field name ty, fake_borrow_temps)
  | .deref arg _ =>
    match expr_as_place hir st arg mutability fake_borrow_temps with
    | none => none
    | some (st, place_builder, fake_borrow_temps) =>
      some (st, place_builder.deref, fake_borrow_temps)
  | .index lhs idx _ =>
    -- lower_index_expression, inlined
    let is_outermost_index := fake_borrow_temps.isNone
    let acc := fake_borrow_temps.getD []
    match expr_as_place hir st lhs mutability (some acc) with
    | none => none
    | some (st, base_place, accOut) =>
      let acc := accOut.getD []
      -- Making this a *fresh* temporary means we do not have to worry
      -- about the index changing later: nothing will ever change this
      -- temporary.  The "retagging" transformation relies on this.
      let (st, idx') := as_temp st idx Mutability.not
      let st := bounds_check st base_place.into_place idx'
      if is_outermost_index then
        some (read_fake_borrows st acc, base_place.index idx', none)
      else
        match add_fake_borrows_of_base st base_place acc with
        | none => none
        | some (st, acc) => some (st, base_place.index idx', some acc)
  | .upvarRef closureDefId varHirId _ =>
    match hir.closureCaptures closureDefId varHirId with
    | none =>
      if !hir.captureDisjointFields then
        none  -- the abort macro: no associated capture found
      else
        -- FIXME(project-rfc-2229) path: falls through to the unwrap on
        -- the absent capture, which also aborts.
        none
    | some (capture_index, upvar_id) =>
      match lower_closure_capture hir st capture_index upvar_id with
      | none => none
      | some (st, place_builder) => some (st, place_builder, fake_borrow_temps)
  | .varRef id _ =>
    let place_builder :=
      if hir.boundVarInGuard id then
        (PlaceBuilder.ofLocal (hir.varLocalId id ForGuard.refWithinGuard)).deref
      else
        PlaceBuilder.ofLocal (hir.varLocalId id ForGuard.outsideGuard)
    some (st, place_builder, fake_borrow_temps)
  | .placeTypeAscription source hasUserTy _ =>
    match expr_as_place hir st source mutability fake_borrow_temps with
    | none => none
    | some (st, place_builder, fake_borrow_temps) =>
      if hasUserTy then
        let annIndex := st.userTypeAnnotationCount
        let place := place_builder.into_place
        let st :=
          { st with
            userTypeAnnotationCount := annIndex + 1,
            stmts := st.stmts ++ [Stmt.ascribe st.curBlock place annIndex] }
        some (st, place_builder, fake_borrow_temps)
      else
        some (st, place_builder, fake_borrow_temps)
  | .valueTypeAscription source hasUserTy _ =>
    let (st, tmp) := as_temp st source mutability
    if hasUserTy then
      let annIndex := st.userTypeAnnotationCount
      let st :=
        { st with
          userTypeAnnotationCount := annIndex + 1,
          stmts := st.stmts ++ [Stmt.ascribe st.curBlock (Place.ofLocal tmp) annIndex] }
      some (st, PlaceBuilder.ofLocal tmp, fake_borrow_temps)
    else
      some (st, PlaceBuilder.ofLocal tmp, fake_borrow_temps)
  | .nonPlace k ty =>
    -- these are not places, so we need to make a temporary.
    let (st, tmp) := as_temp st (.nonPlace k ty) mutability
    some (st, PlaceBuilder.ofLocal tmp, fake_borrow_temps)

/-- `Builder::lower_index_expression`, stated as its own function (its
body is inlined in the `index` arm of `expr_as_place` to keep that
definition structurally recursive; `expr_as_place_index_eq` proves the
two agree). -/
def lower_index_expression (hir : Hir) (st : BState) (base idx : Expr)
    (mutability : Mutability) (fake_borrow_temps : Option (List Local)) :
    Option (BState × PlaceBuilder × Option (List Local)) :=
  let is_outermost_index := fake_borrow_temps.isNone
  let acc := fake_borrow_temps.getD []
  match expr_as_place hir st base mutability (some acc) with
  | none => none
  | some (st, base_place, accOut) =>
    let acc := accOut.getD []
    let (st, idx') := as_temp st idx Mutability.not
    let st := bounds_check st base_place.into_place idx'
    if is_outermost_index then
      some (read_fake_borrows st acc, base_place.index idx', none)
    else
      match add_fake_borrows_of_base st base_place acc with
      | none => none
      | some (st, acc) => some (st, base_place.index idx', some acc)

/-- `Builder::as_place_builder`: the default (mutable) public entry
point, with no fake-borrow accumulator. -/
def as_place_builder (hir : Hir) (st : BState) (e : Expr) :
    Option (BState × PlaceBuilder) :=
  match expr_as_place hir st e Mutability.mut none with
  | none => none
  | some (st, place_builder, _) => some (st, place_builder)

/-- `Builder::as_place`: lower mutably and finalize the builder. -/
def as_place (hir : Hir) (st : BState) (e : Expr) : Option (BState × Place) :=
  match as_place_builder hir st e with
  | none => none
  | some (st, place_builder) => some (st, place_builder.into_place)

/-- `Builder::as_read_only_place_builder`: the read-only public entry
point, with no fake-borrow accumulator. -/
def as_read_only_place_builder (hir : Hir) (st : BState) (e : Expr) :
    Option (BState × PlaceBuilder) :=
  match expr_as_place hir st e Mutability.not none with
  | none => none
  | some (st, place_builder, _) => some (st, place_builder)

/-- `Builder::as_read_only_place`: lower read-only and finalize. -/
def as_read_only_place (hir : Hir) (st : BState) (e : Expr) :
    Option (BState × Place) :=
  match as_read_only_place_builder hir st e with
  | none => none
  | some (st, place_builder) => some (st, place_builder.into_place)

/-- Number of index operations along the place-shaped spine of an
expression: the dispatcher emits exactly one bounds check for each. -/
def indexOps : Expr → Nat
  | .scope v => indexOps v
  | .field lhs _ _ => indexOps lhs
  | .deref arg _ => indexOps arg
  | .index lhs _ _ => indexOps lhs + 1
  | .placeTypeAscription source _ _ => indexOps source
  | .valueTypeAscription _ _ _ => 0
  | .upvarRef _ _ _ => 0
  | .varRef _ _ => 0
  | .nonPlace _ _ => 0

/-- Fixture: the type of `a : &[&[usize]]`, used by the concrete witness
lowerings. -/
def tyW : Ty := Ty.ref (Ty.slice (Ty.ref (Ty.slice Ty.usize)))

/-- Fixture: a read-only typing context with no closure captures and no
guard shadowing; variable 0 lives in local 0. -/
def hirW : Hir where
  closureCaptures := fun _ _ => none
  nodeType := fun _ => Ty.err
  upvarCaptureMode := fun _ => UpvarCapture.byValue
  captureDisjointFields := false
  boundVarInGuard := fun _ => false
  varLocalId := fun _ _ => 0

/-- Fixture: like `hirW` but with the feature gate enabled. -/
def hirW2 : Hir := { hirW with captureDisjointFields := true }

/-- Fixture: initial builder state with one declared local `a : tyW`. -/
def stW : BState where
  localDecls := [⟨tyW, Mutability.mut⟩]
  stmts := []
  curBlock := 0
  nextBlock := 1
  userTypeAnnotationCount := 0

/-- Fixture: an index operand `f()` / `g()` of the chain. -/
def idxOpW : Expr := Expr.nonPlace NonPlaceKind.kCall Ty.usize

/-- Fixture: the base `*a : [&[usize]]` of the inner access. -/
def eInnerBaseW : Expr :=
  Expr.deref (Expr.varRef 0 tyW) (Ty.slice (Ty.ref (Ty.slice Ty.usize)))

/-- Fixture: the inner access of the chain `(*(*a)[f()])[g()]`, namely
`(*a)[f()] : &[usize]`. -/
def eInnerW : Expr := Expr.index eInnerBaseW idxOpW (Ty.ref (Ty.slice Ty.usize))

/-- Fixture: the base `*((*a)[f()]) : [usize]` of the outer access. -/
def eOuterBaseW : Expr := Expr.deref eInnerW (Ty.slice Ty.usize)

/-- Fixture: the outer access `(*(*a)[f()])[g()] : usize`. -/
def eOuterW : Expr := Expr.index eOuterBaseW idxOpW Ty.usize

/-- Fixture: the builder state after lowering `eInnerW` with an (empty)
caller-supplied accumulator: the inner bounds check has been emitted and
the fake borrow of `a` (slot 4) has been assigned, with no fake-read. -/
def innerStW : BState where
  localDecls :=
    [⟨tyW, Mutability.mut⟩, ⟨Ty.usize, Mutability.not⟩, ⟨Ty.usize, Mutability.mut⟩,
     ⟨Ty.bool, Mutability.mut⟩, ⟨Ty.ref tyW, Mutability.mut⟩]
  stmts :=
    [Stmt.eval 0 1,
     Stmt.assign 0 (Place.ofLocal 2) (Rvalue.len ⟨0, [PlaceElem.deref]⟩),
     Stmt.assign 0 (Place.ofLocal 3)
       (Rvalue.binaryOp BinOp.lt (Operand.copy (Place.ofLocal 1))
         (Operand.copy (Place.ofLocal 2))),
     Stmt.assertTerm 0 (Operand.move (Place.ofLocal 3)) true
       (AssertMsg.boundsCheck (Operand.move (Place.ofLocal 2))
         (Operand.copy (Place.ofLocal 1))) 1 2,
     Stmt.assign 1 (Place.ofLocal 4) (Rvalue.ref BorrowKind.shallow ⟨0, []⟩)]
  curBlock := 1
  nextBlock := 3
  userTypeAnnotationCount := 0

/-- Fixture: the builder returned for `eInnerW`. -/
def innerPbW : PlaceBuilder := ⟨0, [PlaceElem.deref, PlaceElem.index 1]⟩

/-- Fixture: the builder state after lowering the whole chain `eOuterW`
from a public entry point: both bounds checks, the fake borrow of `a`,
and the final aggregated fake-read of slot 4 in the outer success
block. -/
def outerStW : BState where
  localDecls :=
    [⟨tyW, Mutability.mut⟩, ⟨Ty.usize, Mutability.not⟩, ⟨Ty.usize, Mutability.mut⟩,
     ⟨Ty.bool, Mutability.mut⟩, ⟨Ty.ref tyW, Mutability.mut⟩,
     ⟨Ty.usize, Mutability.not⟩, ⟨Ty.usize, Mutability.mut⟩, ⟨Ty.bool, Mutability.mut⟩]
  stmts :=
    [Stmt.eval 0 1,
     Stmt.assign 0 (Place.ofLocal 2) (Rvalue.len ⟨0, [PlaceElem.deref]⟩),
     Stmt.assign 0 (Place.ofLocal 3)
       (Rvalue.binaryOp BinOp.lt (Operand.copy (Place.ofLocal 1))
         (Operand.copy (Place.ofLocal 2))),
     Stmt.assertTerm 0 (Operand.move (Place.ofLocal 3)) true
       (AssertMsg.boundsCheck (Operand.move (Place.ofLocal 2))
         (Operand.copy (Place.ofLocal 1))) 1 2,
     Stmt.assign 1 (Place.ofLocal 4) (Rvalue.ref BorrowKind.shallow ⟨0, []⟩),
     Stmt.eval 1 5,
     Stmt.assign 1 (Place.ofLocal 6)
       (Rvalue.len ⟨0, [PlaceElem.deref, PlaceElem.index 1, PlaceElem.deref]⟩),
     Stmt.assign 1 (Place.ofLocal 7)
       (Rvalue.binaryOp BinOp.lt (Operand.copy (Place.ofLocal 5))
         (Operand.copy (Place.ofLocal 6))),
     Stmt.assertTerm 1 (Operand.move (Place.ofLocal 7)) true
       (AssertMsg.boundsCheck (Operand.move (Place.ofLocal 6))
         (Operand.copy (Place.ofLocal 5))) 3 4,
     Stmt.fakeRead 3 FakeReadCause.forIndex (Place.ofLocal 4)]
  curBlock := 3
  nextBlock := 5
  userTypeAnnotationCount := 0

/-- Fixture: the builder returned for `eOuterW`. -/
def outerPbW : PlaceBuilder :=
  ⟨0, [PlaceElem.deref, PlaceElem.index 1, PlaceElem.deref, PlaceElem.index 5]⟩

/-- Fixture: a typing context with a `Fn` closure (node 0, one `usize`
capture taken by reference) and a generator (node 1, one `bool` capture
taken by value); variable 7 is captured by closure 0 at index 0. -/
def hirC : Hir where
  closureCaptures := fun c v =>
    if c == 0 && v == 7 then some (0, ⟨7, 0⟩) else none
  nodeType := fun n =>
    if n == 0 then Ty.closure ClosureKind.fn [Ty.usize] else Ty.generator [Ty.bool]
  upvarCaptureMode := fun uid =>
    if uid.closureExprId == 0 then UpvarCapture.byRef else UpvarCapture.byValue
  captureDisjointFields := false
  boundVarInGuard := fun _ => false
  varLocalId := fun _ _ => 0

/-- Fixture: a builder state whose only local is a fixed-size array. -/
def stArrW : BState where
  localDecls := [⟨Ty.array Ty.usize 3, Mutability.mut⟩]
  stmts := []
  curBlock := 0
  nextBlock := 1
  userTypeAnnotationCount := 0

/-- Unfolding of `bounds_check`: exactly three instructions are appended
(length, comparison, assertion, in that order), two fresh temporaries are
declared, and the insertion point moves to the freshly allocated success
block of the assertion. -/
theorem bounds_check_eq (st : BState) (slice : Place) (index : Local) :
    bounds_check st slice index =
      { localDecls := st.localDecls ++ [⟨Ty.usize, Mutability.mut⟩, ⟨Ty.bool, Mutability.mut⟩],
        stmts := st.stmts ++
          [Stmt.assign st.curBlock (Place.ofLocal st.localDecls.length) (Rvalue.len slice),
           Stmt.assign st.curBlock (Place.ofLocal (st.localDecls.length + 1))
             (Rvalue.binaryOp BinOp.lt (Operand.copy (Place.ofLocal index))
               (Operand.copy (Place.ofLocal st.localDecls.length))),
           Stmt.assertTerm st.curBlock
             (Operand.move (Place.ofLocal (st.localDecls.length + 1))) true
             (AssertMsg.boundsCheck (Operand.move (Place.ofLocal st.localDecls.length))
               (Operand.copy (Place.ofLocal index)))
             st.nextBlock (st.nextBlock + 1)],
        curBlock := st.nextBlock,
        nextBlock := st.nextBlock + 2,
        userTypeAnnotationCount := st.userTypeAnnotationCount } := by
  simp [bounds_check, temp, fresh_local, push_assign, assert]

/-- `read_fake_borrows` appends exactly one fake-read per collected
temporary, in collection order, at the current block, and changes nothing
else. -/
theorem read_fake_borrows_eq : ∀ (acc : List Local) (st : BState),
    read_fake_borrows st acc =
      { st with stmts := st.stmts ++
          acc.map (fun t => Stmt.fakeRead st.curBlock FakeReadCause.forIndex (Place.ofLocal t)) }
  | [], st => by simp [read_fake_borrows]
  | t :: ts, st => by
    have h := read_fake_borrows_eq ts (push_fake_read st FakeReadCause.forIndex (Place.ofLocal t))
    simp only [read_fake_borrows, List.foldl_cons] at h ⊢
    rw [h]
    simp [push_fake_read]

/-- Looking up the slot right past a list prefix. -/
theorem get?_append_cons (l1 : List LocalDecl) (x : LocalDecl) (l2 : List LocalDecl) :
    (l1 ++ x :: l2).get? l1.length = some x := by
  induction l1 with
  | nil => rfl
  | cons a as ih => simpa using ih

/-- `lower_closure_capture` never touches the builder state. -/
theorem lower_closure_capture_state (hir : Hir) (st : BState) (ci : Nat) (uid : UpvarId)
    (st' : BState) (pb : PlaceBuilder)
    (h : lower_closure_capture hir st ci uid = some (st', pb)) : st' = st := by
  unfold lower_closure_capture at h
  cases hnt : hir.nodeType uid.closureExprId <;> rw [hnt] at h
  case closure k tys =>
    cases k <;> cases hg : tys[ci]? <;> simp [hg] at h <;>
      cases hm : hir.upvarCaptureMode uid <;> simp only [hm] at h <;> simp_all
  case generator tys =>
    cases hg : tys[ci]? <;> simp [hg] at h <;>
      cases hm : hir.upvarCaptureMode uid <;> simp only [hm] at h <;> simp_all
  all_goals simp_all

/-- The backward walk only appends assignment statements and local
declarations, leaves the insertion point alone, and only appends to the
accumulator. -/
theorem fake_borrow_walk_spec (L : Local) (P : List PlaceElem) :
    ∀ (items : List (Nat × PlaceElem)) (st : BState) (acc : List Local)
      (st' : BState) (acc' : List Local),
      fake_borrow_walk L P items st acc = some (st', acc') →
      ∃ Δ d ext,
        st'.stmts = st.stmts ++ Δ ∧
        st'.localDecls = st.localDecls ++ d ∧
        st'.curBlock = st.curBlock ∧
        st'.nextBlock = st.nextBlock ∧
        st'.userTypeAnnotationCount = st.userTypeAnnotationCount ∧
        acc' = acc ++ ext ∧
        (∀ s ∈ Δ, s.isFakeRead = false ∧ s.isAssert = false)
  | [], st, acc, st', acc' => by
    intro h
    simp only [fake_borrow_walk, Option.some.injEq, Prod.mk.injEq] at h
    exact ⟨[], [], [], by simp [h.1], by simp [h.1], by simp [h.1], by simp [h.1],
      by simp [h.1], by simp [h.2], by simp⟩
  | (idx, elem) :: rest, st, acc, st', acc' => by
    intro h
    match elem with
    | .deref =>
      simp only [fake_borrow_walk, fresh_local, push_assign] at h
      obtain ⟨Δ, d, ext, h1, h2, h3, h4, h5, h6, h7⟩ :=
        fake_borrow_walk_spec L P rest _ _ st' acc' h
      refine ⟨Stmt.assign st.curBlock (Place.ofLocal st.localDecls.length)
          (Rvalue.ref BorrowKind.shallow ⟨L, P.take idx⟩) :: Δ,
        ⟨Ty.ref (ty_from st.localDecls L (P.take idx)), Mutability.mut⟩ :: d,
        st.localDecls.length :: ext, ?_, ?_, ?_, ?_, ?_, ?_, ?_⟩
      · simpa using h1
      · simpa using h2
      · simpa using h3
      · simpa using h4
      · simpa using h5
      · simpa using h6
      · intro s hs
        rcases List.mem_cons.mp hs with rfl | hs
        · exact ⟨rfl, rfl⟩
        · exact h7 s hs
    | .index l =>
      simp only [fake_borrow_walk] at h
      split at h
      · simp only [Option.some.injEq, Prod.mk.injEq] at h
        exact ⟨[], [], [], by simp [h.1], by simp [h.1], by simp [h.1], by simp [h.1],
          by simp [h.1], by simp [h.2], by simp⟩
      · exact fake_borrow_walk_spec L P rest _ _ st' acc' h
      · exact absurd h (by simp)
    | .field f fty =>
      exact fake_borrow_walk_spec L P rest _ _ st' acc' h
    | .downcast v =>
      exact fake_borrow_walk_spec L P rest _ _ st' acc' h
    | .constantIndex a b c =>
      exact fake_borrow_walk_spec L P rest _ _ st' acc' h
    | .subslice a b c =>
      exact fake_borrow_walk_spec L P rest _ _ st' acc' h

/-- `add_fake_borrows_of_base` only appends assignment statements and
declarations, leaves the insertion point alone, and only appends to the
accumulator. -/
theorem add_fake_borrows_of_base_spec (st : BState) (pb : PlaceBuilder) (acc : List Local)
    (st' : BState) (acc' : List Local)
    (h : add_fake_borrows_of_base st pb acc = some (st', acc')) :
    ∃ Δ d ext,
      st'.stmts = st.stmts ++ Δ ∧
      st'.localDecls = st.localDecls ++ d ∧
      st'.curBlock = st.curBlock ∧
      st'.nextBlock = st.nextBlock ∧
      st'.userTypeAnnotationCount = st.userTypeAnnotationCount ∧
      acc' = acc ++ ext ∧
      (∀ s ∈ Δ, s.isFakeRead = false ∧ s.isAssert = false) := by
  simp only [add_fake_borrows_of_base] at h
  split at h
  · exact fake_borrow_walk_spec _ _ _ _ _ _ _ h
  · simp only [Option.some.injEq, Prod.mk.injEq] at h
    exact ⟨[], [], [], by simp [h.1], by simp [h.1], by simp [h.1], by simp [h.1],
      by simp [h.1], by simp [h.2], by simp⟩

/-- `isAssert` / `isFakeRead` evaluated on each instruction shape. -/
theorem isAssert_assign (b : BasicBlock) (d : Place) (r : Rvalue) :
    (Stmt.assign b d r).isAssert = false := rfl

theorem isAssert_ascribe (b : BasicBlock) (p : Place) (a : Nat) :
    (Stmt.ascribe b p a).isAssert = false := rfl

theorem isAssert_fakeRead (b : BasicBlock) (c : FakeReadCause) (p : Place) :
    (Stmt.fakeRead b c p).isAssert = false := rfl

theorem isAssert_assertTerm (b : BasicBlock) (c : Operand) (e : Bool) (m : AssertMsg)
    (sb fb : BasicBlock) : (Stmt.assertTerm b c e m sb fb).isAssert = true := rfl

theorem isAssert_eval (b : BasicBlock) (i : Local) : (Stmt.eval b i).isAssert = false := rfl

theorem isFakeRead_assign (b : BasicBlock) (d : Place) (r : Rvalue) :
    (Stmt.assign b d r).isFakeRead = false := rfl

theorem isFakeRead_ascribe (b : BasicBlock) (p : Place) (a : Nat) :
    (Stmt.ascribe b p a).isFakeRead = false := rfl

theorem isFakeRead_fakeRead (b : BasicBlock) (c : FakeReadCause) (p : Place) :
    (Stmt.fakeRead b c p).isFakeRead = true := rfl

theorem isFakeRead_assertTerm (b : BasicBlock) (c : Operand) (e : Bool) (m : AssertMsg)
    (sb fb : BasicBlock) : (Stmt.assertTerm b c e m sb fb).isFakeRead = false := rfl

theorem isFakeRead_eval (b : BasicBlock) (i : Local) : (Stmt.eval b i).isFakeRead = false := rfl

/-- Fake-reads contribute no assertions. -/
theorem countP_isAssert_fakeReads (bb : BasicBlock) (l : List Local) :
    List.countP (fun s => s.isAssert)
      (l.map (fun tmp => Stmt.fakeRead bb FakeReadCause.forIndex (Place.ofLocal tmp))) = 0 := by
  rw [List.countP_eq_zero]
  intro s hs
  simp only [List.mem_map] at hs
  obtain ⟨a, _, rfl⟩ := hs
  simp [isAssert_fakeRead]

/-- Master structural lemma about the dispatcher: instructions and
declarations are only appended; exactly one assertion is emitted per
index operation on the place spine; a call that was handed an
accumulator never emits a fake-read and only appends to the accumulator;
and the accumulator is returned in the same shape it was received. -/
theorem expr_as_place_master (hir : Hir) (e : Expr) :
    ∀ (st : BState) (m : Mutability) (fbt : Option (List Local))
      (st' : BState) (pb : PlaceBuilder) (fbt' : Option (List Local)),
      expr_as_place hir st e m fbt = some (st', pb, fbt') →
      ∃ Δ d,
        st'.stmts = st.stmts ++ Δ ∧
        st'.localDecls = st.localDecls ++ d ∧
        List.countP (fun s => s.isAssert) Δ = indexOps e ∧
        (fbt.isSome = true → ∀ s ∈ Δ, s.isFakeRead = false) ∧
        (fbt = none → fbt' = none) ∧
        (∀ l, fbt = some l → ∃ ext, fbt' = some (l ++ ext)) := by
  induction e with
  | scope v ih =>
    intro st m fbt st' pb fbt' h
    rw [expr_as_place] at h
    simpa [indexOps] using ih st m fbt st' pb fbt' h
  | field lhs name ty ih =>
    intro st m fbt st' pb fbt' h
    rw [expr_as_place] at h
    cases hrec : expr_as_place hir st lhs m fbt with
    | none => rw [hrec] at h; exact absurd h (by simp)
    | some r =>
      obtain ⟨st1, pb1, fbt1⟩ := r
      rw [hrec] at h
      simp only [Option.some.injEq, Prod.mk.injEq] at h
      obtain ⟨rfl, rfl, rfl⟩ := h
      simpa [indexOps] using ih st m fbt st1 pb1 fbt1 hrec
  | deref arg ty ih =>
    intro st m fbt st' pb fbt' h
    rw [expr_as_place] at h
    cases hrec : expr_as_place hir st arg m fbt with
    | none => rw [hrec] at h; exact absurd h (by simp)
    | some r =>
      obtain ⟨st1, pb1, fbt1⟩ := r
      rw [hrec] at h
      simp only [Option.some.injEq, Prod.mk.injEq] at h
      obtain ⟨rfl, rfl, rfl⟩ := h
      simpa [indexOps] using ih st m fbt st1 pb1 fbt1 hrec
  | index lhs idx t ihl ihi =>
    intro st m fbt st' pb fbt' h
    rw [expr_as_place] at h
    cases hrec : expr_as_place hir st lhs m (some (fbt.getD [])) with
    | none => rw [hrec] at h; exact absurd h (by simp)
    | some r =>
      obtain ⟨st1, pb1, accOut⟩ := r
      rw [hrec] at h
      obtain ⟨Δ1, d1, hs1, hd1, hc1, hfr1, _, hsome1⟩ :=
        ihl st m (some (fbt.getD [])) st1 pb1 accOut hrec
      obtain ⟨ext1, haccOut⟩ := hsome1 (fbt.getD []) rfl
      subst haccOut
      have hfr1' : ∀ s ∈ Δ1, s.isFakeRead = false := hfr1 rfl
      cases fbt with
      | none =>
        simp only [Option.isNone_none, if_true, Option.getD, Option.some.injEq,
          Prod.mk.injEq, as_temp] at h
        obtain ⟨hst', hpb, hfbt'⟩ := h
        subst hpb; subst hfbt'
        rw [read_fake_borrows_eq] at hst'
        rw [bounds_check_eq] at hst'
        subst hst'
        refine ⟨Δ1 ++
          [Stmt.eval st1.curBlock st1.localDecls.length,
           Stmt.assign st1.curBlock (Place.ofLocal (st1.localDecls.length + 1))
             (Rvalue.len pb1.into_place),
           Stmt.assign st1.curBlock (Place.ofLocal (st1.localDecls.length + 1 + 1))
             (Rvalue.binaryOp BinOp.lt (Operand.copy (Place.ofLocal st1.localDecls.length))
               (Operand.copy (Place.ofLocal (st1.localDecls.length + 1)))),
           Stmt.assertTerm st1.curBlock
             (Operand.move (Place.ofLocal (st1.localDecls.length + 1 + 1))) true
             (AssertMsg.boundsCheck (Operand.move (Place.ofLocal (st1.localDecls.length + 1)))
               (Operand.copy (Place.ofLocal st1.localDecls.length)))
             st1.nextBlock (st1.nextBlock + 1)] ++
          (([] ++ ext1).map (fun tmp =>
            Stmt.fakeRead st1.nextBlock FakeReadCause.forIndex (Place.ofLocal tmp))),
          d1 ++ [⟨(Expr.ty idx), Mutability.not⟩, ⟨Ty.usize, Mutability.mut⟩,
            ⟨Ty.bool, Mutability.mut⟩], ?_, ?_, ?_, ?_, ?_, ?_⟩
        · simp [hs1, List.append_assoc]
        · simp [hd1, List.append_assoc]
        · simp [indexOps, List.countP_append, hc1, List.countP_cons,
            countP_isAssert_fakeReads, isAssert_assign, isAssert_assertTerm, isAssert_eval]
          exact fun a _ => rfl
        · intro hcontra; simp at hcontra
        · intro _; rfl
        · intro l hl; simp at hl
      | some l0 =>
        simp only [Option.isNone_some, if_false, Option.getD, as_temp] at h
        cases hafb : add_fake_borrows_of_base
            (bounds_check
              { st1 with
                localDecls := st1.localDecls ++ [⟨Expr.ty idx, Mutability.not⟩],
                stmts := st1.stmts ++ [Stmt.eval st1.curBlock st1.localDecls.length] }
              pb1.into_place st1.localDecls.length)
            pb1 (l0 ++ ext1) with
        | none => rw [hafb] at h; exact absurd h (by simp)
        | some r2 =>
          obtain ⟨st4, acc4⟩ := r2
          rw [hafb] at h
          simp only [Option.some.injEq, Prod.mk.injEq] at h
          obtain ⟨rfl, rfl, rfl⟩ := h
          obtain ⟨Δw, dw, extw, hws, hwd, _, _, _, hwacc, hwclean⟩ :=
            add_fake_borrows_of_base_spec _ _ _ _ _ hafb
          rw [bounds_check_eq] at hws hwd
          simp only at hws hwd
          refine ⟨Δ1 ++
            [Stmt.eval st1.curBlock st1.localDecls.length,
             Stmt.assign st1.curBlock (Place.ofLocal (st1.localDecls.length + 1))
               (Rvalue.len pb1.into_place),
             Stmt.assign st1.curBlock (Place.ofLocal (st1.localDecls.length + 1 + 1))
               (Rvalue.binaryOp BinOp.lt (Operand.copy (Place.ofLocal st1.localDecls.length))
                 (Operand.copy (Place.ofLocal (st1.localDecls.length + 1)))),
             Stmt.assertTerm st1.curBlock
               (Operand.move (Place.ofLocal (st1.localDecls.length + 1 + 1))) true
               (AssertMsg.boundsCheck (Operand.move (Place.ofLocal (st1.localDecls.length + 1)))
                 (Operand.copy (Place.ofLocal st1.localDecls.length)))
               st1.nextBlock (st1.nextBlock + 1)] ++ Δw,
            d1 ++ [⟨Expr.ty idx, Mutability.not⟩, ⟨Ty.usize, Mutability.mut⟩,
              ⟨Ty.bool, Mutability.mut⟩] ++ dw, ?_, ?_, ?_, ?_, ?_, ?_⟩
          · rw [hws]; simp [hs1, List.append_assoc]
          · rw [hwd]; simp [hd1, List.append_assoc]
          · have hzw : List.countP (fun s => s.isAssert) Δw = 0 :=
              List.countP_eq_zero.mpr (fun s hs => by simp [(hwclean s hs).2])
            simp [indexOps, List.countP_append, hc1, hzw, List.countP_cons,
              isAssert_assign, isAssert_assertTerm, isAssert_eval]
          · intro _ s hs
            rcases List.mem_append.mp hs with hs2 | hs2
            · rcases List.mem_append.mp hs2 with hs3 | hs3
              · exact hfr1' s hs3
              · simp only [List.mem_cons, List.not_mem_nil, or_false] at hs3
                rcases hs3 with rfl | rfl | rfl | rfl <;> rfl
            · exact (hwclean s hs2).1
          · intro hcontra; exact absurd hcontra (by simp)
          · intro l hl
            simp only [Option.some.injEq] at hl
            subst hl
            exact ⟨ext1 ++ extw, by simp [hwacc, List.append_assoc]⟩
  | upvarRef cid vid t =>
    intro st m fbt st' pb fbt' h
    rw [expr_as_place] at h
    cases hcap : hir.closureCaptures cid vid with
    | none => rw [hcap] at h; simp at h
    | some r =>
      obtain ⟨ci, uid⟩ := r
      rw [hcap] at h
      cases hlow : lower_closure_capture hir st ci uid with
      | none => simp [hlow] at h
      | some r2 =>
        obtain ⟨st1, pb1⟩ := r2
        simp only [hlow, Option.some.injEq, Prod.mk.injEq] at h
        obtain ⟨h1, h2, h3⟩ := h
        subst h1; subst h2; subst h3
        have hst := lower_closure_capture_state hir st ci uid st1 pb1 hlow
        subst hst
        exact ⟨[], [], by simp, by simp, by simp [indexOps], by simp, fun h => h,
          fun l hl => ⟨[], by simp [hl]⟩⟩
  | varRef id t =>
    intro st m fbt st' pb fbt' h
    rw [expr_as_place] at h
    simp only [Option.some.injEq, Prod.mk.injEq] at h
    obtain ⟨rfl, _, rfl⟩ := h
    exact ⟨[], [], by simp, by simp, by simp [indexOps], by simp, fun h => h,
      fun l hl => ⟨[], by simp [hl]⟩⟩
  | placeTypeAscription source hasUserTy t ih =>
    intro st m fbt st' pb fbt' h
    rw [expr_as_place] at h
    cases hrec : expr_as_place hir st source m fbt with
    | none => rw [hrec] at h; exact absurd h (by simp)
    | some r =>
      obtain ⟨st1, pb1, fbt1⟩ := r
      rw [hrec] at h
      obtain ⟨Δ1, d1, hs1, hd1, hc1, hfr1, hnone1, hsome1⟩ :=
        ih st m fbt st1 pb1 fbt1 hrec
      cases hasUserTy with
      | true =>
        simp at h
        obtain ⟨h1, h2, h3⟩ := h
        subst h1; subst h2; subst h3
        refine ⟨Δ1 ++ [Stmt.ascribe st1.curBlock pb1.into_place st1.userTypeAnnotationCount],
          d1, ?_, ?_, ?_, ?_, hnone1, hsome1⟩
        · simp [hs1, List.append_assoc]
        · simp [hd1]
        · simp [indexOps, List.countP_append, hc1, List.countP_cons, isAssert_ascribe]
        · intro hsm s hs
          simp only [List.mem_append, List.mem_cons, List.not_mem_nil, or_false] at hs
          rcases hs with hs | rfl
          · exact hfr1 hsm s hs
          · rfl
      | false =>
        simp at h
        obtain ⟨h1, h2, h3⟩ := h
        subst h1; subst h2; subst h3
        exact ⟨Δ1, d1, hs1, hd1, by simpa [indexOps] using hc1, hfr1, hnone1, hsome1⟩
  | valueTypeAscription source hasUserTy t =>
    intro st m fbt st' pb fbt' h
    rw [expr_as_place] at h
    simp only [as_temp] at h
    cases hasUserTy with
    | true =>
      simp at h
      obtain ⟨h1, h2, h3⟩ := h
      subst h1; subst h2; subst h3
      refine ⟨[Stmt.eval st.curBlock st.localDecls.length,
        Stmt.ascribe st.curBlock (Place.ofLocal st.localDecls.length)
          st.userTypeAnnotationCount],
        [⟨Expr.ty source, m⟩], by simp, by simp,
        by simp [indexOps, List.countP_cons, isAssert_eval, isAssert_ascribe], ?_,
        fun h => h, fun l hl => ⟨[], by simp [hl]⟩⟩
      intro _ s hs
      simp only [List.mem_cons, List.not_mem_nil, or_false] at hs
      rcases hs with rfl | rfl <;> rfl
    | false =>
      simp at h
      obtain ⟨h1, h2, h3⟩ := h
      subst h1; subst h2; subst h3
      refine ⟨[Stmt.eval st.curBlock st.localDecls.length], [⟨Expr.ty source, m⟩],
        by simp, by simp, by simp [indexOps, List.countP_cons, isAssert_eval], ?_, fun h => h,
        fun l hl => ⟨[], by simp [hl]⟩⟩
      intro _ s hs
      simp only [List.mem_cons, List.not_mem_nil, or_false] at hs
      rcases hs with rfl <;> rfl
  | nonPlace k ty =>
    intro st m fbt st' pb fbt' h
    rw [expr_as_place] at h
    simp only [as_temp, Option.some.injEq, Prod.mk.injEq] at h
    obtain ⟨h1, h2, h3⟩ := h
    subst h1; subst h2; subst h3
    refine ⟨[Stmt.eval st.curBlock st.localDecls.length], [⟨Expr.ty (.nonPlace k ty), m⟩],
      by simp, by simp, by simp [indexOps, List.countP_cons, isAssert_eval], ?_, fun h => h,
      fun l hl => ⟨[], by simp [hl]⟩⟩
    intro _ s hs
    simp only [List.mem_cons, List.not_mem_nil, or_false] at hs
    rcases hs with rfl <;> rfl

/-- Claim C6: when the capture table holds no entry for the
(closure, variable) pair, lowering a captured-variable reference aborts
immediately and unconditionally with an internal-invariant diagnostic
(modelled as `none`), producing no partial result and no guessed place,
on this path regardless of the `capture_disjoint_fields` feature gate
(the `hir` context, including the gate, is universally quantified). -/
theorem upvar_missing_capture_aborts (hir : Hir) (st : BState) (m : Mutability)
    (fbt : Option (List Local)) (cid vid : Nat) (t : Ty)
    (hcap : hir.closureCaptures cid vid = none) :
    expr_as_place hir st (Expr.upvarRef cid vid t) m fbt = none := by
  rw [expr_as_place, hcap]
  simp

/-- Witness for C6: the abort is exercised at a concrete input, once with
the feature gate disabled and once with it enabled. -/
theorem upvar_missing_capture_aborts_witness :
    hirW.closureCaptures 0 0 = none ∧
    expr_as_place hirW stW (Expr.upvarRef 0 0 Ty.usize) Mutability.mut none = none ∧
    hirW2.closureCaptures 0 0 = none ∧
    expr_as_place hirW2 stW (Expr.upvarRef 0 0 Ty.usize) Mutability.not (some []) = none :=
  ⟨rfl, upvar_missing_capture_aborts hirW stW Mutability.mut none 0 0 Ty.usize rfl,
   rfl, upvar_missing_capture_aborts hirW2 stW Mutability.not (some []) 0 0 Ty.usize rfl⟩

/-- Claim C7: for every expression kind that does not denote a location
(all thirty-one kinds of the catch-all arm), and for every requested
mutability, the expression is materialized via the value-evaluation
collaborator into a fresh temporary carrying the requested mutability,
and the result is a trivial builder (zero projections) rooted at the new
slot — a slot index past every previously allocated slot, as the second
conjunct records. -/
theorem non_place_fallback (hir : Hir) (k : NonPlaceKind) (st : BState)
    (m : Mutability) (fbt : Option (List Local)) (ty : Ty) :
    expr_as_place hir st (Expr.nonPlace k ty) m fbt =
      some ({ st with
                localDecls := st.localDecls ++ [⟨ty, m⟩],
                stmts := st.stmts ++ [Stmt.eval st.curBlock st.localDecls.length] },
            PlaceBuilder.ofLocal st.localDecls.length, fbt) ∧
    st.localDecls.get? st.localDecls.length = none := by
  constructor
  · rw [expr_as_place]
    rfl
  · simp

/-- Claim C8: a local-variable reference shadowed by a match-guard's
by-reference copy becomes one dereference over the guard's indirect slot;
otherwise it is the variable's declared slot with zero projections; in
both cases the builder state (instruction stream, declarations, insertion
point) is returned untouched. -/
theorem var_ref_place (hir : Hir) (st : BState) (m : Mutability)
    (fbt : Option (List Local)) (id : Nat) (t : Ty) :
    expr_as_place hir st (Expr.varRef id t) m fbt =
      some (st,
        if hir.boundVarInGuard id then
          PlaceBuilder.mk (hir.varLocalId id ForGuard.refWithinGuard) [PlaceElem.deref]
        else
          PlaceBuilder.mk (hir.varLocalId id ForGuard.outsideGuard) [],
        fbt) := by
  rw [expr_as_place]
  by_cases hg : hir.boundVarInGuard id <;> simp [hg, PlaceBuilder.ofLocal,
    PlaceBuilder.deref, PlaceBuilder.project]

/-- Claim C5: capture lowering roots the builder at the synthesized
environment slot (local 1) and appends exactly: an initial dereference
iff the environment is a closure of kind `Fn` or `FnMut` (not for
`FnOnce` closures, not for generators); a field-select at the capture
index with the environment's recorded per-capture type; a final
dereference iff the capture is by-reference.  The third conjunct records
that the dispatcher routes a captured-variable reference with a capture
entry straight to this lowering, leaving state and accumulator alone. -/
theorem closure_capture_shape (hir : Hir) (st : BState) (k : Nat) (uid : UpvarId) :
    (∀ ck tys vty, hir.nodeType uid.closureExprId = Ty.closure ck tys →
       tys[k]? = some vty →
       lower_closure_capture hir st k uid =
         some (st, ⟨1,
           (if ck = ClosureKind.fnOnce then [] else [PlaceElem.deref]) ++
           [PlaceElem.field k vty] ++
           (if hir.upvarCaptureMode uid = UpvarCapture.byRef then [PlaceElem.deref] else [])⟩)) ∧
    (∀ tys vty, hir.nodeType uid.closureExprId = Ty.generator tys →
       tys[k]? = some vty →
       lower_closure_capture hir st k uid =
         some (st, ⟨1, [PlaceElem.field k vty] ++
           (if hir.upvarCaptureMode uid = UpvarCapture.byRef then [PlaceElem.deref] else [])⟩)) ∧
    (∀ (st' : BState) (m : Mutability) (fbt : Option (List Local)) (cid vid : Nat) (t : Ty)
       (r : BState × PlaceBuilder),
       hir.closureCaptures cid vid = some (k, uid) →
       lower_closure_capture hir st' k uid = some r →
       expr_as_place hir st' (Expr.upvarRef cid vid t) m fbt = some (r.1, r.2, fbt)) := by
  refine ⟨?_, ?_, ?_⟩
  · intro ck tys vty hnt hget
    unfold lower_closure_capture
    rw [hnt]
    cases ck <;>
      cases hm : hir.upvarCaptureMode uid <;>
        simp [hget, hm, PlaceBuilder.ofLocal, PlaceBuilder.deref, PlaceBuilder.field,
          PlaceBuilder.project]
  · intro tys vty hnt hget
    unfold lower_closure_capture
    rw [hnt]
    cases hm : hir.upvarCaptureMode uid <;>
      simp [hget, hm, PlaceBuilder.ofLocal, PlaceBuilder.deref, PlaceBuilder.field,
        PlaceBuilder.project]
  · intro st' m fbt cid vid t r hcap hlow
    rw [expr_as_place, hcap]
    simp [hlow]

/-- Claim C4: for every indexing expression and every requested
mutability, the index operand is materialized into a fresh read-only
temporary (its declaration records `Mutability.not` whatever `m` is),
while the base expression is lowered with the requested mutability `m`
itself. -/
theorem index_operand_read_only (hir : Hir) (st : BState) (lhs idxE : Expr) (t : Ty)
    (m : Mutability) (fbt : Option (List Local)) (st' : BState) (pb : PlaceBuilder)
    (fbt' : Option (List Local))
    (h : expr_as_place hir st (Expr.index lhs idxE t) m fbt = some (st', pb, fbt')) :
    ∃ st1 pb1 accOut,
      expr_as_place hir st lhs m (some (fbt.getD [])) = some (st1, pb1, accOut) ∧
      pb = pb1.index st1.localDecls.length ∧
      st'.localDecls.get? st1.localDecls.length = some ⟨idxE.ty, Mutability.not⟩ := by
  rw [expr_as_place] at h
  cases hrec : expr_as_place hir st lhs m (some (fbt.getD [])) with
  | none => rw [hrec] at h; exact absurd h (by simp)
  | some r =>
    obtain ⟨st1, pb1, accOut⟩ := r
    rw [hrec] at h
    obtain ⟨Δ1, d1, _, _, _, _, _, hsome1⟩ :=
      expr_as_place_master hir lhs st m (some (fbt.getD [])) st1 pb1 accOut hrec
    obtain ⟨ext1, rfl⟩ := hsome1 (fbt.getD []) rfl
    refine ⟨st1, pb1, some (fbt.getD [] ++ ext1), rfl, ?_⟩
    cases fbt with
    | none =>
      simp only [Option.isNone_none, if_true, Option.getD, Option.some.injEq, Prod.mk.injEq,
        as_temp] at h
      obtain ⟨hst', hpb, hfbt'⟩ := h
      subst hpb
      rw [read_fake_borrows_eq, bounds_check_eq] at hst'
      subst hst'
      refine ⟨rfl, ?_⟩
      simp only []
      rw [List.append_assoc]
      exact get?_append_cons st1.localDecls ⟨idxE.ty, Mutability.not⟩ _
    | some l0 =>
      simp only [Option.isNone_some, Bool.false_eq_true, if_false, Option.getD,
        as_temp] at h
      cases hafb : add_fake_borrows_of_base
          (bounds_check
            { st1 with
              localDecls := st1.localDecls ++ [⟨Expr.ty idxE, Mutability.not⟩],
              stmts := st1.stmts ++ [Stmt.eval st1.curBlock st1.localDecls.length] }
            pb1.into_place st1.localDecls.length)
          pb1 (l0 ++ ext1) with
      | none => rw [hafb] at h; exact absurd h (by simp)
      | some r2 =>
        obtain ⟨st4, acc4⟩ := r2
        rw [hafb] at h
        simp only [Option.some.injEq, Prod.mk.injEq] at h
        obtain ⟨h1, h2, h3⟩ := h
        subst h1; subst h2
        obtain ⟨Δw, dw, extw, _, hwd, _, _, _, _, _⟩ :=
          add_fake_borrows_of_base_spec _ _ _ _ _ hafb
        rw [bounds_check_eq] at hwd
        simp only [] at hwd
        refine ⟨rfl, ?_⟩
        rw [hwd, List.append_assoc, List.append_assoc]
        exact get?_append_cons st1.localDecls ⟨idxE.ty, Mutability.not⟩ _

/-- Claim C3: `bounds_check` emits exactly three instructions at the
current insertion point, in order: an assignment computing the length of
the base place, an assignment computing the less-than comparison of the
index temporary against that length, and an assertion expecting `true`
whose failure payload is the structured out-of-bounds message carrying
the length and index operands.  The assertion moves the insertion point
to a freshly allocated success block (distinct from the old insertion
point whenever block ids are fresh), with the failure path a separate
block.  Moreover, along any successful lowering, exactly one such
assertion is emitted per index operation of the expression. -/
theorem bounds_check_per_index (hir : Hir) :
    (∀ (st : BState) (slice : Place) (index : Local),
       bounds_check st slice index =
         { localDecls := st.localDecls ++
             [⟨Ty.usize, Mutability.mut⟩, ⟨Ty.bool, Mutability.mut⟩],
           stmts := st.stmts ++
             [Stmt.assign st.curBlock (Place.ofLocal st.localDecls.length)
                (Rvalue.len slice),
              Stmt.assign st.curBlock (Place.ofLocal (st.localDecls.length + 1))
                (Rvalue.binaryOp BinOp.lt (Operand.copy (Place.ofLocal index))
                  (Operand.copy (Place.ofLocal st.localDecls.length))),
              Stmt.assertTerm st.curBlock
                (Operand.move (Place.ofLocal (st.localDecls.length + 1))) true
                (AssertMsg.boundsCheck
                  (Operand.move (Place.ofLocal st.localDecls.length))
                  (Operand.copy (Place.ofLocal index)))
                st.nextBlock (st.nextBlock + 1)],
           curBlock := st.nextBlock,
           nextBlock := st.nextBlock + 2,
           userTypeAnnotationCount := st.userTypeAnnotationCount } ∧
       (st.curBlock < st.nextBlock →
         (bounds_check st slice index).curBlock ≠ st.curBlock)) ∧
    (∀ (e : Expr) (st : BState) (m : Mutability) (fbt : Option (List Local))
       (st' : BState) (pb : PlaceBuilder) (fbt' : Option (List Local)),
       expr_as_place hir st e m fbt = some (st', pb, fbt') →
       ∃ Δ, st'.stmts = st.stmts ++ Δ ∧
         List.countP (fun s => s.isAssert) Δ = indexOps e) := by
  constructor
  · intro st slice index
    refine ⟨bounds_check_eq st slice index, ?_⟩
    intro hlt
    have hcb : (bounds_check st slice index).curBlock = st.nextBlock := by
      rw [bounds_check_eq]
    rw [hcb]
    exact Nat.ne_of_gt hlt
  · intro e st m fbt st' pb fbt' h
    obtain ⟨Δ, d, hΔ, _, hcnt, _, _, _⟩ :=
      expr_as_place_master hir e st m fbt st' pb fbt' h
    exact ⟨Δ, hΔ, hcnt⟩

/-- Claim C10: the public entry points all start the lowering with no
fake-borrow accumulator; `as_place` / `as_place_builder` request mutable
lowering and `as_read_only_place` / `as_read_only_place_builder` request
read-only lowering; and a top-level index expression (no accumulator) is
always classified as outermost: its lowering hands back no accumulator
and ends by emitting the aggregated fake-borrow read after its bounds
check. -/
theorem entry_points_outermost (hir : Hir) :
    (∀ st e, as_place_builder hir st e =
       Option.map (fun r => (r.1, r.2.1)) (expr_as_place hir st e Mutability.mut none)) ∧
    (∀ st e, as_read_only_place_builder hir st e =
       Option.map (fun r => (r.1, r.2.1)) (expr_as_place hir st e Mutability.not none)) ∧
    (∀ st e, as_place hir st e =
       Option.map (fun r => (r.1, r.2.into_place)) (as_place_builder hir st e)) ∧
    (∀ st e, as_read_only_place hir st e =
       Option.map (fun r => (r.1, r.2.into_place)) (as_read_only_place_builder hir st e)) ∧
    (∀ (st : BState) (lhs idxE : Expr) (t : Ty) (m : Mutability) (st' : BState)
       (pb : PlaceBuilder) (fbt' : Option (List Local)),
       expr_as_place hir st (Expr.index lhs idxE t) m none = some (st', pb, fbt') →
       fbt' = none ∧
       ∃ st1 pb1 acc,
         expr_as_place hir st lhs m (some []) = some (st1, pb1, some acc) ∧
         st' = read_fake_borrows
           (bounds_check (as_temp st1 idxE Mutability.not).1 pb1.into_place
             (as_temp st1 idxE Mutability.not).2) acc ∧
         pb = pb1.index (as_temp st1 idxE Mutability.not).2) := by
  refine ⟨?_, ?_, ?_, ?_, ?_⟩
  · intro st e
    rw [as_place_builder]
    cases expr_as_place hir st e Mutability.mut none with
    | none => rfl
    | some r => obtain ⟨st1, pb1, fbt1⟩ := r; rfl
  · intro st e
    rw [as_read_only_place_builder]
    cases expr_as_place hir st e Mutability.not none with
    | none => rfl
    | some r => obtain ⟨st1, pb1, fbt1⟩ := r; rfl
  · intro st e
    rw [as_place]
    cases as_place_builder hir st e with
    | none => rfl
    | some r => obtain ⟨st1, pb1⟩ := r; rfl
  · intro st e
    rw [as_read_only_place]
    cases as_read_only_place_builder hir st e with
    | none => rfl
    | some r => obtain ⟨st1, pb1⟩ := r; rfl
  · intro st lhs idxE t m st' pb fbt' h
    rw [expr_as_place] at h
    simp only [Option.getD_none] at h
    cases hrec : expr_as_place hir st lhs m (some []) with
    | none => rw [hrec] at h; exact absurd h (by simp)
    | some r =>
      obtain ⟨st1, pb1, accOut⟩ := r
      rw [hrec] at h
      obtain ⟨Δ1, d1, _, _, _, _, _, hsome1⟩ :=
        expr_as_place_master hir lhs st m (some []) st1 pb1 accOut hrec
      obtain ⟨ext1, rfl⟩ := hsome1 [] rfl
      simp only [Option.isNone_none, if_true, Option.some.injEq, Prod.mk.injEq,
        as_temp] at h
      obtain ⟨hst', hpb, hfbt'⟩ := h
      exact ⟨hfbt'.symm, st1, pb1, [] ++ ext1, rfl, hst'.symm, hpb.symm⟩

/-- Claim C1: (outermost half) when an indexing expression is lowered
with no caller-supplied fake-borrow accumulator, the call hands back no
accumulator and the emitted stream ends with exactly one fake-read per
fake-borrow temporary collected anywhere in the chain (the accumulator
`acc` returned by the base lowering, which started empty), in collection
order, placed after the outermost bounds check's assertion — hence after
the evaluation of every index operand — and before anything else is
emitted (the returned builder, ending in the final index projection, is
the not-yet-emitted final access); no fake-read occurs earlier in the
stream.  (Nested half) when a caller-supplied accumulator is present,
the call emits no fake-read at all; instead the fake borrows of its own
base place are appended to the shared accumulator via
`add_fake_borrows_of_base`, and the extended accumulator is handed back
to the caller. -/
theorem fake_borrow_read_aggregation (hir : Hir) :
    (∀ (st : BState) (lhs idxE : Expr) (t : Ty) (m : Mutability) (st' : BState)
       (pb : PlaceBuilder) (fbtOut : Option (List Local)),
       expr_as_place hir st (Expr.index lhs idxE t) m none = some (st', pb, fbtOut) →
       fbtOut = none ∧
       ∃ st1 pb1 acc Δ1 i sb,
         expr_as_place hir st lhs m (some []) = some (st1, pb1, some acc) ∧
         st1.stmts = st.stmts ++ Δ1 ∧
         (∀ s ∈ Δ1, s.isFakeRead = false) ∧
         st'.stmts = st.stmts ++ Δ1 ++
           [Stmt.eval st1.curBlock i,
            Stmt.assign st1.curBlock (Place.ofLocal (i + 1)) (Rvalue.len pb1.into_place),
            Stmt.assign st1.curBlock (Place.ofLocal (i + 1 + 1))
              (Rvalue.binaryOp BinOp.lt (Operand.copy (Place.ofLocal i))
                (Operand.copy (Place.ofLocal (i + 1)))),
            Stmt.assertTerm st1.curBlock (Operand.move (Place.ofLocal (i + 1 + 1))) true
              (AssertMsg.boundsCheck (Operand.move (Place.ofLocal (i + 1)))
                (Operand.copy (Place.ofLocal i)))
              sb (sb + 1)] ++
           acc.map (fun tmp => Stmt.fakeRead sb FakeReadCause.forIndex (Place.ofLocal tmp)) ∧
         pb = pb1.index i) ∧
    (∀ (st : BState) (lhs idxE : Expr) (t : Ty) (m : Mutability) (l : List Local)
       (st' : BState) (pb : PlaceBuilder) (fbtOut : Option (List Local)),
       expr_as_place hir st (Expr.index lhs idxE t) m (some l) = some (st', pb, fbtOut) →
       ∃ Δ l',
         st'.stmts = st.stmts ++ Δ ∧
         (∀ s ∈ Δ, s.isFakeRead = false) ∧
         fbtOut = some l' ∧
         (∃ ext, l' = l ++ ext) ∧
         ∃ st1 pb1 acc1,
           expr_as_place hir st lhs m (some l) = some (st1, pb1, some acc1) ∧
           add_fake_borrows_of_base
             (bounds_check (as_temp st1 idxE Mutability.not).1 pb1.into_place
               (as_temp st1 idxE Mutability.not).2)
             pb1 acc1 = some (st', l') ∧
           pb = pb1.index (as_temp st1 idxE Mutability.not).2) := by
  constructor
  · intro st lhs idxE t m st' pb fbtOut h
    rw [expr_as_place] at h
    simp only [Option.getD_none] at h
    cases hrec : expr_as_place hir st lhs m (some []) with
    | none => rw [hrec] at h; exact absurd h (by simp)
    | some r =>
      obtain ⟨st1, pb1, accOut⟩ := r
      rw [hrec] at h
      obtain ⟨Δ1, d1, hs1, hd1, _, hfr1, _, hsome1⟩ :=
        expr_as_place_master hir lhs st m (some []) st1 pb1 accOut hrec
      obtain ⟨ext1, rfl⟩ := hsome1 [] rfl
      have hfr1' : ∀ s ∈ Δ1, s.isFakeRead = false := hfr1 rfl
      simp only [Option.isNone_none, if_true, Option.some.injEq, Prod.mk.injEq,
        as_temp] at h
      obtain ⟨hst', hpb, hfbt'⟩ := h
      refine ⟨hfbt'.symm, st1, pb1, [] ++ ext1, Δ1, st1.localDecls.length,
        st1.nextBlock, rfl, hs1, hfr1', ?_, hpb.symm⟩
      rw [← hst', read_fake_borrows_eq, bounds_check_eq]
      simp only []
      rw [hs1]
      simp [List.append_assoc]
  · intro st lhs idxE t m l st' pb fbtOut h
    obtain ⟨Δ, d, hΔ, _, _, hfrAll, _, hsomeAll⟩ :=
      expr_as_place_master hir (Expr.index lhs idxE t) st m (some l) st' pb fbtOut h
    obtain ⟨ext, rfl⟩ := hsomeAll l rfl
    refine ⟨Δ, l ++ ext, hΔ, hfrAll rfl, rfl, ⟨ext, rfl⟩, ?_⟩
    rw [expr_as_place] at h
    cases hrec : expr_as_place hir st lhs m (some ((some l).getD [])) with
    | none => rw [hrec] at h; exact absurd h (by simp)
    | some r =>
      obtain ⟨st1, pb1, accOut⟩ := r
      rw [hrec] at h
      obtain ⟨Δ1, d1, _, _, _, _, _, hsome1⟩ :=
        expr_as_place_master hir lhs st m (some ((some l).getD [])) st1 pb1 accOut hrec
      obtain ⟨ext1, rfl⟩ := hsome1 ((some l).getD []) rfl
      simp only [Option.isNone_some, Bool.false_eq_true, if_false, Option.getD,
        as_temp] at h
      cases hafb : add_fake_borrows_of_base
          (bounds_check
            { st1 with
              localDecls := st1.localDecls ++ [⟨Expr.ty idxE, Mutability.not⟩],
              stmts := st1.stmts ++ [Stmt.eval st1.curBlock st1.localDecls.length] }
            pb1.into_place st1.localDecls.length)
          pb1 (l ++ ext1) with
      | none => rw [hafb] at h; exact absurd h (by simp)
      | some r2 =>
        obtain ⟨st4, acc4⟩ := r2
        rw [hafb] at h
        simp only [Option.some.injEq, Prod.mk.injEq] at h
        obtain ⟨h1, h2, h3⟩ := h
        have h3' : acc4 = l ++ ext := by
          have := h3
          simp only [Option.some.injEq] at this
          exact this
        refine ⟨st1, pb1, l ++ ext1, ?_, ?_, h2.symm⟩
        · simpa using hrec
        · rw [← h1, ← h3']
          exact hafb

/-- Claim C2: fake borrows are emitted for a base place iff its fully
projected type is a slice — in particular a fixed-size-array base place
emits none and leaves state and accumulator untouched (first two
conjuncts).  When the type is a slice, the projection chain is walked
from the end backward (third conjunct: the walk runs over the reversed
enumerated projections), and each step behaves as the remaining
conjuncts state: a dereference allocates exactly one fresh temporary
(the next slot index), assigns it a shallow borrow of the strict prefix
before the dereference, and pushes it onto the accumulator; an index
projection whose prefix type is a slice stops the walk with state and
accumulator as they stand; an index projection whose prefix type is a
fixed-size array continues unchanged; an index projection over any other
prefix type aborts as an internal error; field-select, downcast,
constant-index and subslice projections are transparent. -/
theorem add_fake_borrows_cases :
    (∀ (st : BState) (pb : PlaceBuilder) (acc : List Local),
       (∀ t, ty_from st.localDecls pb.localId pb.projection ≠ Ty.slice t) →
       add_fake_borrows_of_base st pb acc = some (st, acc)) ∧
    (∀ (st : BState) (pb : PlaceBuilder) (acc : List Local) (e : Ty) (n : Nat),
       ty_from st.localDecls pb.localId pb.projection = Ty.array e n →
       add_fake_borrows_of_base st pb acc = some (st, acc)) ∧
    (∀ (st : BState) (pb : PlaceBuilder) (acc : List Local) (t : Ty),
       ty_from st.localDecls pb.localId pb.projection = Ty.slice t →
       add_fake_borrows_of_base st pb acc =
         fake_borrow_walk pb.localId pb.projection pb.projection.enum.reverse st acc) ∧
    (∀ (L : Local) (P : List PlaceElem) (idx : Nat) (rest : List (Nat × PlaceElem))
       (st : BState) (acc : List Local),
       fake_borrow_walk L P ((idx, PlaceElem.deref) :: rest) st acc =
         fake_borrow_walk L P rest
           { st with
             localDecls := st.localDecls ++
               [⟨Ty.ref (ty_from st.localDecls L (P.take idx)), Mutability.mut⟩],
             stmts := st.stmts ++
               [Stmt.assign st.curBlock (Place.ofLocal st.localDecls.length)
                 (Rvalue.ref BorrowKind.shallow ⟨L, P.take idx⟩)] }
           (acc ++ [st.localDecls.length])) ∧
    (∀ (L : Local) (P : List PlaceElem) (idx : Nat) (il : Local)
       (rest : List (Nat × PlaceElem)) (st : BState) (acc : List Local) (t : Ty),
       ty_from st.localDecls L (P.take idx) = Ty.slice t →
       fake_borrow_walk L P ((idx, PlaceElem.index il) :: rest) st acc = some (st, acc)) ∧
    (∀ (L : Local) (P : List PlaceElem) (idx : Nat) (il : Local)
       (rest : List (Nat × PlaceElem)) (st : BState) (acc : List Local) (e : Ty) (n : Nat),
       ty_from st.localDecls L (P.take idx) = Ty.array e n →
       fake_borrow_walk L P ((idx, PlaceElem.index il) :: rest) st acc =
         fake_borrow_walk L P rest st acc) ∧
    (∀ (L : Local) (P : List PlaceElem) (idx : Nat) (il : Local)
       (rest : List (Nat × PlaceElem)) (st : BState) (acc : List Local),
       (∀ t, ty_from st.localDecls L (P.take idx) ≠ Ty.slice t) →
       (∀ e n, ty_from st.localDecls L (P.take idx) ≠ Ty.array e n) →
       fake_borrow_walk L P ((idx, PlaceElem.index il) :: rest) st acc = none) ∧
    (∀ (L : Local) (P : List PlaceElem) (idx : Nat) (f : Nat) (fty : Ty)
       (rest : List (Nat × PlaceElem)) (st : BState) (acc : List Local),
       fake_borrow_walk L P ((idx, PlaceElem.field f fty) :: rest) st acc =
         fake_borrow_walk L P rest st acc) ∧
    (∀ (L : Local) (P : List PlaceElem) (idx : Nat) (v : Nat)
       (rest : List (Nat × PlaceElem)) (st : BState) (acc : List Local),
       fake_borrow_walk L P ((idx, PlaceElem.downcast v) :: rest) st acc =
         fake_borrow_walk L P rest st acc) ∧
    (∀ (L : Local) (P : List PlaceElem) (idx : Nat) (o mn : Nat) (fe : Bool)
       (rest : List (Nat × PlaceElem)) (st : BState) (acc : List Local),
       fake_borrow_walk L P ((idx, PlaceElem.constantIndex o mn fe) :: rest) st acc =
         fake_borrow_walk L P rest st acc) ∧
    (∀ (L : Local) (P : List PlaceElem) (idx : Nat) (lo hi : Nat) (fe : Bool)
       (rest : List (Nat × PlaceElem)) (st : BState) (acc : List Local),
       fake_borrow_walk L P ((idx, PlaceElem.subslice lo hi fe) :: rest) st acc =
         fake_borrow_walk L P rest st acc) := by
  refine ⟨?_, ?_, ?_, ?_, ?_, ?_, ?_, ?_, ?_, ?_, ?_⟩
  · intro st pb acc hns
    rw [add_fake_borrows_of_base]
    cases hty : ty_from st.localDecls pb.localId pb.projection with
    | slice t => exact absurd hty (hns t)
    | _ => rfl
  · intro st pb acc e n hty
    rw [add_fake_borrows_of_base, hty]
  · intro st pb acc t hty
    rw [add_fake_borrows_of_base, hty]
  · intro L P idx rest st acc
    rw [fake_borrow_walk]
    rfl
  · intro L P idx il rest st acc t hty
    rw [fake_borrow_walk, hty]
  · intro L P idx il rest st acc e n hty
    rw [fake_borrow_walk, hty]
  · intro L P idx il rest st acc hns hna
    rw [fake_borrow_walk]
    cases hty : ty_from st.localDecls L (P.take idx) with
    | slice t => exact absurd hty (hns t)
    | array e n => exact absurd hty (hna e n)
    | _ => rfl
  · intro L P idx f fty rest st acc
    rw [fake_borrow_walk]
  · intro L P idx v rest st acc
    rw [fake_borrow_walk]
  · intro L P idx o mn fe rest st acc
    rw [fake_borrow_walk]
  · intro L P idx lo hi fe rest st acc
    rw [fake_borrow_walk]

/-- Witness for C1: the two halves of the aggregation theorem exercised
on the concrete chain `(*(*a)[f()])[g()]` with `a : &[&[usize]]` — the
outermost call (no accumulator) and the nested inner call (empty shared
accumulator, which ends up holding the fake-borrow slot 4). -/
theorem fake_borrow_read_aggregation_witness :
    expr_as_place hirW stW (Expr.index eOuterBaseW idxOpW Ty.usize) Mutability.mut none =
      some (outerStW, outerPbW, none) ∧
    ((none : Option (List Local)) = none ∧
      ∃ st1 pb1 acc Δ1 i sb,
        expr_as_place hirW stW eOuterBaseW Mutability.mut (some []) =
          some (st1, pb1, some acc) ∧
        st1.stmts = stW.stmts ++ Δ1 ∧
        (∀ s ∈ Δ1, s.isFakeRead = false) ∧
        outerStW.stmts = stW.stmts ++ Δ1 ++
          [Stmt.eval st1.curBlock i,
           Stmt.assign st1.curBlock (Place.ofLocal (i + 1)) (Rvalue.len pb1.into_place),
           Stmt.assign st1.curBlock (Place.ofLocal (i + 1 + 1))
             (Rvalue.binaryOp BinOp.lt (Operand.copy (Place.ofLocal i))
               (Operand.copy (Place.ofLocal (i + 1)))),
           Stmt.assertTerm st1.curBlock (Operand.move (Place.ofLocal (i + 1 + 1))) true
             (AssertMsg.boundsCheck (Operand.move (Place.ofLocal (i + 1)))
               (Operand.copy (Place.ofLocal i)))
             sb (sb + 1)] ++
          acc.map (fun tmp => Stmt.fakeRead sb FakeReadCause.forIndex (Place.ofLocal tmp)) ∧
        outerPbW = pb1.index i) ∧
    expr_as_place hirW stW (Expr.index eInnerBaseW idxOpW (Ty.ref (Ty.slice Ty.usize)))
        Mutability.mut (some []) = some (innerStW, innerPbW, some [4]) ∧
    (∃ Δ l',
      innerStW.stmts = stW.stmts ++ Δ ∧
      (∀ s ∈ Δ, s.isFakeRead = false) ∧
      (some [4] : Option (List Local)) = some l' ∧
      (∃ ext, l' = [] ++ ext) ∧
      ∃ st1 pb1 acc1,
        expr_as_place hirW stW eInnerBaseW Mutability.mut (some []) =
          some (st1, pb1, some acc1) ∧
        add_fake_borrows_of_base
          (bounds_check (as_temp st1 idxOpW Mutability.not).1 pb1.into_place
            (as_temp st1 idxOpW Mutability.not).2)
          pb1 acc1 = some (innerStW, l') ∧
        innerPbW = pb1.index (as_temp st1 idxOpW Mutability.not).2) :=
  ⟨rfl,
   (fake_borrow_read_aggregation hirW).1 stW eOuterBaseW idxOpW Ty.usize Mutability.mut
     outerStW outerPbW none rfl,
   rfl,
   (fake_borrow_read_aggregation hirW).2 stW eInnerBaseW idxOpW (Ty.ref (Ty.slice Ty.usize))
     Mutability.mut [] innerStW innerPbW (some [4]) rfl⟩

/-- Witness for C2: the walk characterization exercised concretely — an
array-typed base place emits nothing; a slice-typed base place runs the
backward walk; an index projection whose prefix is already a slice stops
the walk; an index projection over a non-array, non-slice prefix
aborts. -/
theorem add_fake_borrows_cases_witness :
    (ty_from stArrW.localDecls 0 [] = Ty.array Ty.usize 3 ∧
     add_fake_borrows_of_base stArrW ⟨0, []⟩ [] = some (stArrW, [])) ∧
    (ty_from stW.localDecls 0 [PlaceElem.deref] = Ty.slice (Ty.ref (Ty.slice Ty.usize)) ∧
     add_fake_borrows_of_base stW ⟨0, [PlaceElem.deref]⟩ [] =
       fake_borrow_walk 0 [PlaceElem.deref] [PlaceElem.deref].enum.reverse stW []) ∧
    (ty_from stW.localDecls 0 ([PlaceElem.deref, PlaceElem.index 1].take 1) =
       Ty.slice (Ty.ref (Ty.slice Ty.usize)) ∧
     fake_borrow_walk 0 [PlaceElem.deref, PlaceElem.index 1] [(1, PlaceElem.index 1)] stW [] =
       some (stW, [])) ∧
    fake_borrow_walk 0 [] [(0, PlaceElem.index 1)] stW [] = none :=
  ⟨⟨rfl, add_fake_borrows_cases.2.1 stArrW ⟨0, []⟩ [] Ty.usize 3 rfl⟩,
   ⟨rfl, add_fake_borrows_cases.2.2.1 stW ⟨0, [PlaceElem.deref]⟩ []
     (Ty.ref (Ty.slice Ty.usize)) rfl⟩,
   ⟨rfl, add_fake_borrows_cases.2.2.2.2.1 0 [PlaceElem.deref, PlaceElem.index 1] 1 1 [] stW []
     (Ty.ref (Ty.slice Ty.usize)) rfl⟩,
   add_fake_borrows_cases.2.2.2.2.2.2.1 0 [] 0 1 [] stW []
     (fun t h => Ty.noConfusion h) (fun e n h => Ty.noConfusion h)⟩

/-- Witness for C3: the emitted-shape implication instantiated with
fresh block ids, and the one-assertion-per-index-operation count on the
two-deep concrete chain (two index operations, two assertions). -/
theorem bounds_check_per_index_witness :
    (stW.curBlock < stW.nextBlock ∧
     (bounds_check stW (Place.ofLocal 0) 1).curBlock ≠ stW.curBlock) ∧
    (expr_as_place hirW stW eOuterW Mutability.mut none = some (outerStW, outerPbW, none) ∧
     ∃ Δ, outerStW.stmts = stW.stmts ++ Δ ∧
       List.countP (fun s => s.isAssert) Δ = indexOps eOuterW) :=
  ⟨⟨by decide, ((bounds_check_per_index hirW).1 stW (Place.ofLocal 0) 1).2 (by decide)⟩,
   ⟨rfl, (bounds_check_per_index hirW).2 eOuterW stW Mutability.mut none outerStW outerPbW
     none rfl⟩⟩

/-- Witness for C4: on the concrete outer indexing expression the index
operand lands in the fresh read-only temporary (slot 5 of the result
state), while the base was lowered with the requested (mutable)
mutability. -/
theorem index_operand_read_only_witness :
    expr_as_place hirW stW (Expr.index eOuterBaseW idxOpW Ty.usize) Mutability.mut none =
      some (outerStW, outerPbW, none) ∧
    (∃ st1 pb1 accOut,
      expr_as_place hirW stW eOuterBaseW Mutability.mut (some []) = some (st1, pb1, accOut) ∧
      outerPbW = pb1.index st1.localDecls.length ∧
      outerStW.localDecls.get? st1.localDecls.length = some ⟨Ty.usize, Mutability.not⟩) :=
  ⟨rfl,
   index_operand_read_only hirW stW eOuterBaseW idxOpW Ty.usize Mutability.mut none
     outerStW outerPbW none rfl⟩

/-- Witness for C5: a by-reference capture in an `Fn` closure yields
`[deref, field(0), deref]`; a by-value capture in a generator yields
`[field(0)]`; and the dispatcher routes the captured-variable reference
through the capture entry. -/
theorem closure_capture_shape_witness :
    hirC.nodeType 0 = Ty.closure ClosureKind.fn [Ty.usize] ∧
    lower_closure_capture hirC stW 0 ⟨7, 0⟩ =
      some (stW, ⟨1, [PlaceElem.deref, PlaceElem.field 0 Ty.usize, PlaceElem.deref]⟩) ∧
    lower_closure_capture hirC stW 0 ⟨8, 1⟩ =
      some (stW, ⟨1, [PlaceElem.field 0 Ty.bool]⟩) ∧
    expr_as_place hirC stW (Expr.upvarRef 0 7 Ty.usize) Mutability.mut none =
      some (stW, ⟨1, [PlaceElem.deref, PlaceElem.field 0 Ty.usize, PlaceElem.deref]⟩, none) :=
  ⟨rfl,
   (closure_capture_shape hirC stW 0 ⟨7, 0⟩).1 ClosureKind.fn [Ty.usize] Ty.usize rfl rfl,
   (closure_capture_shape hirC stW 0 ⟨8, 1⟩).2.1 [Ty.bool] Ty.bool rfl rfl,
   (closure_capture_shape hirC stW 0 ⟨7, 0⟩).2.2 stW Mutability.mut none 0 7 Ty.usize
     (stW, ⟨1, [PlaceElem.deref, PlaceElem.field 0 Ty.usize, PlaceElem.deref]⟩) rfl rfl⟩

/-- Witness for C10: the concrete chain lowered through the default
(mutable, accumulator-free) path takes the outermost branch: no
accumulator is handed back and the final state is the aggregated
fake-read appended after the outer bounds check. -/
theorem entry_points_outermost_witness :
    expr_as_place hirW stW (Expr.index eOuterBaseW idxOpW Ty.usize) Mutability.mut none =
      some (outerStW, outerPbW, none) ∧
    ((none : Option (List Local)) = none ∧
     ∃ st1 pb1 acc,
       expr_as_place hirW stW eOuterBaseW Mutability.mut (some []) =
         some (st1, pb1, some acc) ∧
       outerStW = read_fake_borrows
         (bounds_check (as_temp st1 idxOpW Mutability.not).1 pb1.into_place
           (as_temp st1 idxOpW Mutability.not).2) acc ∧
       outerPbW = pb1.index (as_temp st1 idxOpW Mutability.not).2) :=
  ⟨rfl,
   (entry_points_outermost hirW).2.2.2.2 stW eOuterBaseW idxOpW Ty.usize Mutability.mut
     outerStW outerPbW none rfl⟩
